import Mathlib

set_option autoImplicit false
set_option maxHeartbeats 1000000

/-!
Shallow embedding of the sincronia push/sync core (the `AppUtils` module).
JavaScript objects are modelled as association lists in key-insertion
order: `Object.keys` enumeration is the list of first components, and
property assignment replaces the value at an existing key in place or
appends a fresh key at the end, exactly as JS objects behave.
External collaborators (the filesystem, the remote client, the plugin
content transformer) are modelled as oracle functions supplied through
environment structures; each repository function records the externally
visible calls it makes as an explicit trace.
-/

namespace Sincronia

/-- Association list standing in for a JS object with string keys. -/
abbrev AList (α : Type) := List (String × α)

/-- `SN.File`: a manifest file entry. `content` is transient. -/
structure SNFile where
  name : String
  type : String
  targetField : Option String := none
  content : Option String := none
  deriving DecidableEq, Repr

/-- `SN.MetaRecord`: a manifest record. -/
structure MetaRecord where
  sys_id : String
  name : String
  files : List SNFile
  deriving DecidableEq, Repr

/-- `SN.TableConfig`: records keyed by internal record key. -/
structure TableConfig where
  records : AList MetaRecord
  deriving DecidableEq, Repr

/-- `SN.TableMap`: tables keyed by table name. -/
abbrev TableMap := AList TableConfig

/-- `SN.AppManifest`: root manifest object `\x7bscope, tables\x7d`. -/
structure AppManifest where
  scope : String
  tables : TableMap
  deriving DecidableEq, Repr

/-- `Sinc.FileContext` restricted to the fields the push pipeline reads. -/
structure FileContext where
  tableName : String
  sys_id : String
  targetField : String
  name : String
  deriving DecidableEq, Repr

/-- `Sinc.RecordContextMap`: targetField to FileContext. -/
abbrev RecordContextMap := AList FileContext

/-- One table's slice of the context tree: sys_id to RecordContextMap. -/
abbrev TableContextTree := AList RecordContextMap

/-- `Sinc.AppFileContextTree`: tableName to sys_id to targetField to context. -/
abbrev AppFileContextTree := AList TableContextTree

/-- `Sinc.PushResult`. -/
structure PushResult where
  success : Bool
  message : String
  deriving DecidableEq, Repr

/-- `path.join` for the forward-slash paths this module builds. -/
def pjoin (a b : String) : String := a ++ "/" ++ b

/-- Property read `obj[k]` on a JS object. -/
def alGet {α : Type} (l : AList α) (k : String) : Option α :=
  match l with
  | [] => none
  | (a, v) :: rest => if a = k then some v else alGet rest k

/-- JS `obj[k] = g(obj[k] or d)`: replace in place at an existing key,
append at the end for a fresh key (insertion-order semantics). -/
def alUpd {α : Type} (l : AList α) (k : String) (d : α) (g : α → α) : AList α :=
  match l with
  | [] => [(k, g d)]
  | (a, v) :: rest => if a = k then (a, g v) :: rest else (a, v) :: alUpd rest k d g

/-- JS `obj[k] = v`. -/
def alSet {α : Type} (l : AList α) (k : String) (v : α) : AList α :=
  alUpd l k v (fun _ => v)

/-- One step of the `groupAppFiles` reduce: `fillIfNotExists` on the two
outer levels, then `tree[tableName][sys_id][targetField] = cur`. -/
def insertCtx (tree : AppFileContextTree) (cur : FileContext) : AppFileContextTree :=
  alUpd tree cur.tableName []
    (fun tt => alUpd tt cur.sys_id []
      (fun rm => alSet rm cur.targetField cur))

/-- `groupAppFiles`: reduce of `insertCtx` over the context list. -/
def groupAppFiles (fileCtxs : List FileContext) : AppFileContextTree :=
  fileCtxs.foldl insertCtx []

/-- `countRecsInTree`: total number of (table, sys_id) pairs. -/
def countRecsInTree (tree : AppFileContextTree) : Nat :=
  tree.foldl (fun acc p => acc + p.2.length) 0

/-- Three-level lookup in an `AppFileContextTree`. -/
def treeGet (tree : AppFileContextTree) (t s f : String) : Option FileContext :=
  (alGet tree t).bind (fun tt => (alGet tt s).bind (fun rm => alGet rm f))

/-- The grouping key of a context. -/
def ctxTriple (c : FileContext) : String × String × String :=
  (c.tableName, c.sys_id, c.targetField)

theorem alGet_alUpd {α : Type} (l : AList α) (k k' : String) (d : α) (g : α → α) :
    alGet (alUpd l k d g) k' =
      if k = k' then some (g ((alGet l k).getD d)) else alGet l k' := by
  induction l with
  | nil =>
    by_cases h : k = k' <;> simp [alUpd, alGet, h]
  | cons hd tl ih =>
    obtain ⟨a, v⟩ := hd
    by_cases ha : a = k
    · subst ha
      by_cases h : a = k' <;> simp [alUpd, alGet, h]
    · by_cases h : a = k'
      · subst h
        have ha' : ¬(k = a) := fun hka => ha hka.symm
        simp [alUpd, alGet, ha, ha']
      · simp [alUpd, alGet, ha, h, ih]

theorem alGet_alSet {α : Type} (l : AList α) (k k' : String) (v : α) :
    alGet (alSet l k v) k' = if k = k' then some v else alGet l k' := by
  simp [alSet, alGet_alUpd]

theorem treeGet_insertCtx (tree : AppFileContextTree) (c : FileContext)
    (t s f : String) :
    treeGet (insertCtx tree c) t s f =
      if ctxTriple c = (t, s, f) then some c else treeGet tree t s f := by
  unfold treeGet insertCtx
  by_cases ht : c.tableName = t
  · subst ht
    rw [alGet_alUpd, if_pos rfl, Option.some_bind, alGet_alUpd]
    by_cases hs : c.sys_id = s
    · subst hs
      rw [if_pos rfl, Option.some_bind, alGet_alSet]
      by_cases hf : c.targetField = f
      · subst hf
        rw [if_pos rfl]
        simp [ctxTriple]
      · have hne : ¬(ctxTriple c = (c.tableName, c.sys_id, f)) := by
          simp [ctxTriple, hf]
        rw [if_neg hf, if_neg hne]
        cases h1 : alGet tree c.tableName with
        | none => simp [alGet]
        | some tt =>
          simp only [Option.getD_some, Option.some_bind]
          cases h2 : alGet tt c.sys_id with
          | none => simp [alGet]
          | some rm => simp
    · have hne : ¬(ctxTriple c = (c.tableName, s, f)) := by
        simp [ctxTriple, hs]
      rw [if_neg hs, if_neg hne]
      cases h1 : alGet tree c.tableName with
      | none => simp [alGet]
      | some tt => simp
  · have hne : ¬(ctxTriple c = (t, s, f)) := by
      simp [ctxTriple, ht]
    rw [alGet_alUpd, if_neg ht, if_neg hne]

/-- The Boolean grouping predicate for a fixed key triple. -/
def ctxMatches (t s f : String) (c : FileContext) : Bool :=
  c.tableName == t && c.sys_id == s && c.targetField == f

theorem ctxMatches_iff (t s f : String) (c : FileContext) :
    ctxMatches t s f c = true ↔ ctxTriple c = (t, s, f) := by
  simp [ctxMatches, ctxTriple, and_assoc]

theorem treeGet_foldl_insertCtx (l : List FileContext) (tree : AppFileContextTree)
    (t s f : String) :
    treeGet (l.foldl insertCtx tree) t s f =
      match (l.filter (ctxMatches t s f)).getLast? with
      | some c => some c
      | none => treeGet tree t s f := by
  induction l generalizing tree with
  | nil => simp
  | cons c l ih =>
    rw [List.foldl_cons, ih, List.filter_cons]
    by_cases hb : ctxMatches t s f c = true
    · rw [if_pos hb]
      cases hfil : l.filter (ctxMatches t s f) with
      | nil =>
        show treeGet (insertCtx tree c) t s f = _
        rw [treeGet_insertCtx, if_pos ((ctxMatches_iff t s f c).mp hb)]
        simp
      | cons x xs =>
        rw [List.getLast?_cons_cons]
        cases hl : (x :: xs).getLast? with
        | none => simp at hl
        | some d => rfl
    · rw [if_neg hb]
      have hc : ¬(ctxTriple c = (t, s, f)) :=
        fun hc => hb ((ctxMatches_iff t s f c).mpr hc)
      rw [treeGet_insertCtx, if_neg hc]

/-- `groupAppFiles` characterized: lookup at a triple returns the last
input context with that triple (JS overwrite semantics), if any. -/
theorem treeGet_groupAppFiles (l : List FileContext) (t s f : String) :
    treeGet (groupAppFiles l) t s f =
      match (l.filter (ctxMatches t s f)).getLast? with
      | some c => some c
      | none => none := by
  unfold groupAppFiles
  rw [treeGet_foldl_insertCtx]
  cases (l.filter (ctxMatches t s f)).getLast? <;> simp [treeGet, alGet]

theorem filter_length_le_one_of_nodup_triples (l : List FileContext)
    (hu : (l.map ctxTriple).Nodup) (t s f : String) :
    (l.filter (ctxMatches t s f)).length ≤ 1 := by
  induction l with
  | nil => simp
  | cons c l ih =>
    simp only [List.map_cons, List.nodup_cons] at hu
    obtain ⟨hnotin, hnd⟩ := hu
    by_cases hb : ctxMatches t s f c = true
    · have hc := (ctxMatches_iff t s f c).mp hb
      have hfil : l.filter (ctxMatches t s f) = [] := by
        rw [List.filter_eq_nil_iff]
        intro d hd hdb
        have hdc := (ctxMatches_iff t s f d).mp hdb
        exact hnotin (by rw [← hc] at hdc; rw [← hdc]; exact List.mem_map_of_mem ctxTriple hd)
      rw [List.filter_cons, if_pos hb, hfil]
      simp
    · have hbf : ctxMatches t s f c = false := by
        simp only [Bool.not_eq_true] at hb
        exact hb
      rw [List.filter_cons, hbf]
      simp only [Bool.false_eq_true, if_false]
      exact ih hnd

/-- Sample contexts used to instantiate proved theorems. -/
def ctxA : FileContext := { tableName := "t1", sys_id := "r1", targetField := "script", name := "recA" }

/-- Second sample context, distinct grouping triple from `ctxA`. -/
def ctxB : FileContext := { tableName := "t2", sys_id := "r2", targetField := "script", name := "recB" }

/-- C9: for every list of file contexts whose grouping triples
(table, sys_id, targetField) are pairwise distinct, `groupAppFiles` is
permutation-invariant: reordering the input yields a structurally
identical tree, i.e. the three-level trees agree at every lookup key.
(Trees are compared as nested key-to-value mappings; JS objects with the
same properties are structurally equal regardless of insertion order.) -/
theorem groupAppFiles_perm_invariant (l₁ l₂ : List FileContext)
    (hperm : l₁.Perm l₂) (hu : (l₁.map ctxTriple).Nodup)
    (t s f : String) :
    treeGet (groupAppFiles l₁) t s f = treeGet (groupAppFiles l₂) t s f := by
  rw [treeGet_groupAppFiles, treeGet_groupAppFiles]
  have hpf : (l₁.filter (ctxMatches t s f)).Perm (l₂.filter (ctxMatches t s f)) :=
    hperm.filter _
  have h1 : (l₁.filter (ctxMatches t s f)).length ≤ 1 :=
    filter_length_le_one_of_nodup_triples l₁ hu t s f
  have heq : l₁.filter (ctxMatches t s f) = l₂.filter (ctxMatches t s f) := by
    cases hfil : l₁.filter (ctxMatches t s f) with
    | nil =>
      rw [hfil] at hpf
      exact (hpf.symm.eq_nil).symm
    | cons x xs =>
      cases xs with
      | nil =>
        rw [hfil] at hpf
        exact (List.singleton_perm).mp hpf
      | cons y ys =>
        rw [hfil] at h1
        simp at h1
  rw [heq]

/-- Witness for C9 at a concrete two-element permutation. -/
theorem groupAppFiles_perm_invariant_witness :
    [ctxA, ctxB].Perm [ctxB, ctxA] ∧ ([ctxA, ctxB].map ctxTriple).Nodup ∧
    treeGet (groupAppFiles [ctxA, ctxB]) "t1" "r1" "script" =
      treeGet (groupAppFiles [ctxB, ctxA]) "t1" "r1" "script" :=
  ⟨by decide, by decide,
    groupAppFiles_perm_invariant [ctxA, ctxB] [ctxB, ctxA]
      (by decide) (by decide) "t1" "r1" "script"⟩

/-! ### Build pipeline and push orchestrator -/

/-- Whether an `Except` models a fulfilled promise. -/
def exIsOk {ε α : Type} : Except ε α → Bool
  | .ok _ => true
  | .error _ => false

/-- The rejection reason of a settled promise, if rejected. -/
def errOf? {ε α : Type} : Except ε α → Option ε
  | .ok _ => none
  | .error e => some e

/-- The fulfilled value of a settled promise, if fulfilled. -/
def okOf? {ε α : Type} : Except ε α → Option α
  | .ok v => some v
  | .error _ => none

/-- One labelled line per failure, indices counting up from `i`. -/
def aggregateLines (errs : List String) (labeler : String → Nat → String) (i : Nat) :
    List String :=
  match errs with
  | [] => []
  | e :: rest => (labeler e i ++ ": " ++ e) :: aggregateLines rest labeler (i + 1)

/-- Modelled from the spec: `aggregateErrorMessages` lives in `genericUtils`,
which is not under src. The spec says a failed record build raises "an
aggregated message enumerating every failed field's index and reason"; we
model the aggregate as the top message followed by one labelled line per
failure, the label produced by the caller-supplied labeler. -/
def aggregateErrorMessages (errs : List String) (topMsg : String)
    (labeler : String → Nat → String) : String :=
  (aggregateLines errs labeler 0).foldl (fun acc line => acc ++ "\n" ++ line) topMsg

/-- `buildRec`: run the plugin transformer oracle on every field of one
record, settle all outcomes, and either aggregate every failure into one
error or assemble the field-to-content map by indexed reduce. -/
def buildRec (build : FileContext → Except String String)
    (rec : RecordContextMap) : Except String (AList String) :=
  let fields := rec.map (fun p => p.1)
  let builtFiles := rec.map (fun p => build p.2)
  let failed := builtFiles.filterMap errOf?
  if failed = [] then
    .ok ((fields.zip (builtFiles.filterMap okOf?)).foldl
      (fun acc q => alSet acc q.1 q.2) [])
  else
    .error (aggregateErrorMessages failed "Failed to build!" (fun _ i => toString i))

/-- `summarizeRecord`. -/
def summarizeRecord (table recDescriptor : String) : String :=
  table ++ " > " ++ recDescriptor

/-- `recMap[recFields[0]].name || recIds[index]`: the display name of the
record's first field context, or the sys_id when that name is blank. -/
def recDescriptorOf (recMap : RecordContextMap) (recId : String) : String :=
  match recMap with
  | [] => recId
  | (_, ctx) :: _ => if ctx.name = "" then recId else ctx.name

/-- Oracles for the push stage's external collaborators: the plugin
transformer and the composite `retryOnErr`/`updateRecord`/
`processPushResponse` remote call (`.error` is the caught rejection whose
message is `e.message || "Too many retries"`). -/
structure PushEnv where
  build : FileContext → Except String String
  pushRec : String → String → AList String → Except String PushResult

/-- Body of the per-record closure inside `buildAndPush`, given that
record's settled build outcome. The second component counts how many times
the progress `finally` block runs: the build-failure branch returns before
the `try`, so the `finally` (and hence the tick) is skipped there. -/
def pushStage (env : PushEnv) (table recId : String) (recMap : RecordContextMap)
    (buildRes : Except String (AList String)) : PushResult × Nat :=
  let recSummary := summarizeRecord table (recDescriptorOf recMap recId)
  match buildRes with
  | .error msg => ({ success := false, message := recSummary ++ " : " ++ msg }, 0)
  | .ok fieldMap =>
    match env.pushRec table recId fieldMap with
    | .ok res => (res, 1)
    | .error errMsg =>
      ({ success := false, message := recSummary ++ " : " ++ errMsg }, 1)

/-- `buildAndPush`: build every record of one table, then push each settled
outcome; returns the per-record results in record enumeration order and the
number of progress-tick site executions. -/
def buildAndPush (env : PushEnv) (table : String) (tableTree : TableContextTree) :
    List PushResult × Nat :=
  let builtRecs := tableTree.map (fun p => buildRec env.build p.2)
  let pushed := (builtRecs.zip tableTree).map
    (fun q => pushStage env table q.2.1 q.2.2 q.1)
  (pushed.map (fun r => r.1), (pushed.map (fun r => r.2)).sum)

/-- `getProgTick`: a tick observer exists exactly at log level "info". -/
def getProgTick (logLevel : String) (_total : Nat) : Bool :=
  logLevel == "info"

/-- `pushFiles`: fan out `buildAndPush` over every table and flatten the
per-table result lists; the second component is the number of times the
progress observer is invoked. -/
def pushFiles (env : PushEnv) (logLevel : String) (appFileTree : AppFileContextTree)
    (recordCount : Nat) : List PushResult × Nat :=
  let tick := getProgTick logLevel recordCount
  let tableResults := appFileTree.map (fun p => buildAndPush env p.1 p.2)
  ((tableResults.map (fun r => r.1)).flatten,
   if tick then (tableResults.map (fun r => r.2)).sum else 0)

theorem alGet_append {α : Type} (a b : AList α) (k : String) :
    alGet (a ++ b) k =
      match alGet a k with
      | some v => some v
      | none => alGet b k := by
  induction a with
  | nil => simp [alGet]
  | cons hd tl ih =>
    by_cases h : hd.1 = k
    · simp [alGet, h]
    · simp only [List.cons_append, alGet, h, if_false]
      exact ih

theorem alSet_eq_append {α : Type} (acc : AList α) (k : String) (v : α)
    (h : alGet acc k = none) : alSet acc k v = acc ++ [(k, v)] := by
  induction acc with
  | nil => rfl
  | cons hd tl ih =>
    simp only [alGet] at h
    by_cases hk : hd.1 = k
    · rw [if_pos hk] at h
      exact absurd h (by simp)
    · rw [if_neg hk] at h
      cases hd
      simp_all [alSet, alUpd]

theorem foldl_alSet_fresh {α : Type} :
    ∀ (l : List (String × α)) (acc : AList α),
      (l.map (fun p => p.1)).Nodup →
      (∀ k ∈ l.map (fun p => p.1), alGet acc k = none) →
      l.foldl (fun acc q => alSet acc q.1 q.2) acc = acc ++ l := by
  intro l
  induction l with
  | nil => simp
  | cons hd tl ih =>
    intro acc hnd hfresh
    simp only [List.map_cons, List.nodup_cons] at hnd
    have h0 : alGet acc hd.1 = none := hfresh hd.1 (by simp)
    have hset : alSet acc hd.1 hd.2 = acc ++ [(hd.1, hd.2)] := alSet_eq_append acc hd.1 hd.2 h0
    simp only [List.foldl_cons, hset]
    rw [ih (acc ++ [(hd.1, hd.2)]) hnd.2]
    · simp
    · intro k hk
      rw [alGet_append]
      have hk1 : alGet acc k = none := hfresh k (by simp [hk])
      have hk2 : hd.1 ≠ k := by
        intro he
        exact hnd.1 (he ▸ hk)
      simp [hk1, alGet, hk2]

theorem filterMap_errOf_eq_nil_iff {ε α : Type} (l : List (Except ε α)) :
    l.filterMap errOf? = [] ↔ ∀ x ∈ l, exIsOk x = true := by
  rw [List.filterMap_eq_nil_iff]
  constructor
  · intro h x hx
    cases hc : x with
    | ok v => rfl
    | error e => exact absurd (h x hx) (by simp [hc, errOf?])
  · intro h x hx
    cases hc : x with
    | ok v => simp [errOf?]
    | error e =>
      have := h x hx
      rw [hc] at this
      exact absurd this (by simp [exIsOk])

theorem length_filterMap_okOf {ε α : Type} (l : List (Except ε α))
    (h : ∀ x ∈ l, exIsOk x = true) :
    (l.filterMap okOf?).length = l.length := by
  induction l with
  | nil => rfl
  | cons hd tl ih =>
    cases hc : hd with
    | ok v =>
      simp only [List.filterMap_cons, hc, okOf?, List.length_cons]
      rw [ih (fun x hx => h x (List.mem_cons_of_mem hd hx))]
    | error e =>
      have := h hd (by simp)
      rw [hc] at this
      exact absurd this (by simp [exIsOk])

theorem mem_zip_okvals (build : FileContext → Except String String) :
    ∀ (rec : RecordContextMap),
      (∀ q ∈ rec, exIsOk (build q.2) = true) →
      ∀ p ∈ rec, ∃ v, build p.2 = .ok v ∧
        (p.1, v) ∈ (rec.map (fun p => p.1)).zip
          ((rec.map (fun p => build p.2)).filterMap okOf?) := by
  intro rec
  induction rec with
  | nil => intro _ p hp; exact absurd hp (List.not_mem_nil p)
  | cons hd tl ih =>
    intro hall p hp
    cases hc : build hd.2 with
    | error e =>
      have := hall hd (by simp)
      rw [hc] at this
      exact absurd this (by simp [exIsOk])
    | ok v =>
      simp only [List.map_cons, hc, List.filterMap_cons, okOf?, List.zip_cons_cons]
      rcases List.mem_cons.mp hp with hph | hpt
      · exact ⟨v, by rw [hph, hc], by rw [hph]; exact List.mem_cons_self _ _⟩
      · obtain ⟨v', hv', hmem⟩ := ih (fun q hq => hall q (List.mem_cons_of_mem hd hq)) p hpt
        exact ⟨v', hv', List.mem_cons_of_mem _ hmem⟩

theorem data_prefix_foldl_lines :
    ∀ (lines : List String) (acc : String),
      acc.data <:+: (lines.foldl (fun a line => a ++ "\n" ++ line) acc).data := by
  intro lines
  induction lines with
  | nil => intro acc; exact List.infix_refl _
  | cons hd tl ih =>
    intro acc
    refine List.IsInfix.trans ?_ (ih (acc ++ "\n" ++ hd))
    simp only [String.data_append]
    exact (List.prefix_append _ _).isInfix.trans
      ((List.prefix_append _ _).isInfix)

theorem mem_data_infix_foldl_lines :
    ∀ (lines : List String) (acc x : String), x ∈ lines →
      x.data <:+: (lines.foldl (fun a line => a ++ "\n" ++ line) acc).data := by
  intro lines
  induction lines with
  | nil => intro _ x hx; exact absurd hx (List.not_mem_nil x)
  | cons hd tl ih =>
    intro acc x hx
    rcases List.mem_cons.mp hx with hxh | hxt
    · subst hxh
      refine List.IsInfix.trans ?_ (data_prefix_foldl_lines tl (acc ++ "\n" ++ x))
      simp only [String.data_append]
      exact (List.suffix_append _ _).isInfix
    · exact ih (acc ++ "\n" ++ hd) x hxt

theorem mem_aggregateLines (labeler : String → Nat → String) :
    ∀ (errs : List String) (i : Nat) (r : String), r ∈ errs →
      ∃ line ∈ aggregateLines errs labeler i, r.data <:+: line.data := by
  intro errs
  induction errs with
  | nil => intro _ r hr; exact absurd hr (List.not_mem_nil r)
  | cons hd tl ih =>
    intro i r hr
    rcases List.mem_cons.mp hr with hrh | hrt
    · subst hrh
      refine ⟨labeler r i ++ ": " ++ r, by simp [aggregateLines], ?_⟩
      simp only [String.data_append]
      exact (List.suffix_append _ _).isInfix
    · obtain ⟨line, hline, hinf⟩ := ih (i + 1) r hrt
      exact ⟨line, by simp [aggregateLines, hline], hinf⟩

theorem data_infix_aggregate (errs : List String) (topMsg : String)
    (labeler : String → Nat → String) (r : String) (hr : r ∈ errs) :
    r.data <:+: (aggregateErrorMessages errs topMsg labeler).data := by
  obtain ⟨line, hline, hinf⟩ := mem_aggregateLines labeler errs 0 r hr
  exact hinf.trans (mem_data_infix_foldl_lines _ topMsg line hline)

/-- C4: for every record context map (with the JS-object invariant of
distinct field keys), `buildRec` settles every field transform: it succeeds
exactly when every field transform succeeds; on success it returns a
field-to-content map whose keys are exactly the input's fields, each bound
to its transform's output (never a partial map); on failure the error is
the aggregate of every failed field's indexed reason, and contains every
failed field's reason. -/
theorem buildRec_spec (build : FileContext → Except String String)
    (rec : RecordContextMap) (hnd : (rec.map (fun p => p.1)).Nodup) :
    exIsOk (buildRec build rec) = rec.all (fun p => exIsOk (build p.2)) ∧
    (∀ m, buildRec build rec = .ok m →
      m.map (fun q => q.1) = rec.map (fun p => p.1) ∧
      ∀ p ∈ rec, ∃ v, build p.2 = .ok v ∧ (p.1, v) ∈ m) ∧
    (∀ e, buildRec build rec = .error e →
      e = aggregateErrorMessages ((rec.map (fun p => build p.2)).filterMap errOf?)
        "Failed to build!" (fun _ i => toString i) ∧
      ∀ p ∈ rec, ∀ r, build p.2 = .error r → r.data <:+: e.data) := by
  refine ⟨?_, ?_, ?_⟩
  · by_cases hf : (rec.map (fun p => build p.2)).filterMap errOf? = []
    · have hall := (filterMap_errOf_eq_nil_iff _).mp hf
      rw [buildRec, if_pos hf]
      have : rec.all (fun p => exIsOk (build p.2)) = true := by
        rw [List.all_eq_true]
        intro p hp
        exact hall (build p.2) (List.mem_map_of_mem _ hp)
      rw [this]
      rfl
    · rw [buildRec, if_neg hf]
      have : ¬(rec.all (fun p => exIsOk (build p.2)) = true) := by
        intro hall
        apply hf
        rw [filterMap_errOf_eq_nil_iff]
        intro x hx
        obtain ⟨p, hp, hpx⟩ := List.mem_map.mp hx
        rw [← hpx]
        exact (List.all_eq_true.mp hall) p hp
      rw [Bool.not_eq_true] at this
      rw [this]
      rfl
  · intro m hm
    by_cases hf : (rec.map (fun p => build p.2)).filterMap errOf? = []
    · have hall := (filterMap_errOf_eq_nil_iff _).mp hf
      have hall' : ∀ q ∈ rec, exIsOk (build q.2) = true :=
        fun q hq => hall (build q.2) (List.mem_map_of_mem _ hq)
      rw [buildRec, if_pos hf] at hm
      have hlen : ((rec.map (fun p => build p.2)).filterMap okOf?).length =
          (rec.map (fun p => p.1)).length := by
        rw [length_filterMap_okOf _ hall]
        simp
      have hzfst : ((rec.map (fun p => p.1)).zip
          ((rec.map (fun p => build p.2)).filterMap okOf?)).map Prod.fst =
          rec.map (fun p => p.1) :=
        List.map_fst_zip _ _ (le_of_eq hlen.symm)
      have hznd : (((rec.map (fun p => p.1)).zip
          ((rec.map (fun p => build p.2)).filterMap okOf?)).map (fun p => p.1)).Nodup := by
        show (List.map Prod.fst _).Nodup
        rw [hzfst]
        exact hnd
      have hfold := foldl_alSet_fresh
        ((rec.map (fun p => p.1)).zip ((rec.map (fun p => build p.2)).filterMap okOf?))
        [] hznd (by intro k _; rfl)
      simp only [List.nil_append] at hfold
      rw [hfold] at hm
      injection hm with hm
      subst hm
      refine ⟨hzfst, ?_⟩
      intro p hp
      exact mem_zip_okvals build rec hall' p hp
    · rw [buildRec, if_neg hf] at hm
      exact absurd hm (by simp)
  · intro e he
    by_cases hf : (rec.map (fun p => build p.2)).filterMap errOf? = []
    · rw [buildRec, if_pos hf] at he
      exact absurd he (by simp)
    · rw [buildRec, if_neg hf] at he
      injection he with he
      refine ⟨he.symm, ?_⟩
      intro p hp r hr
      have hrmem : r ∈ (rec.map (fun p => build p.2)).filterMap errOf? := by
        rw [List.mem_filterMap]
        exact ⟨build p.2, List.mem_map_of_mem _ hp, by rw [hr]; rfl⟩
      rw [← he]
      exact data_infix_aggregate _ _ _ r hrmem

/-- A concrete plugin-transformer oracle: table "t1" builds, others fail. -/
def wBuild : FileContext → Except String String :=
  fun c => if c.tableName = "t1" then .ok ("built " ++ c.name) else .error "transform failed"

/-- A concrete two-field record context map. -/
def wRec : RecordContextMap := [("script", ctxA), ("css", ctxB)]

/-- Witness for C4 at a concrete record with one succeeding and one
failing field. -/
theorem buildRec_spec_witness :
    (wRec.map (fun p => p.1)).Nodup ∧
    (exIsOk (buildRec wBuild wRec) = wRec.all (fun p => exIsOk (wBuild p.2)) ∧
    (∀ m, buildRec wBuild wRec = .ok m →
      m.map (fun q => q.1) = wRec.map (fun p => p.1) ∧
      ∀ p ∈ wRec, ∃ v, wBuild p.2 = .ok v ∧ (p.1, v) ∈ m) ∧
    (∀ e, buildRec wBuild wRec = .error e →
      e = aggregateErrorMessages ((wRec.map (fun p => wBuild p.2)).filterMap errOf?)
        "Failed to build!" (fun _ i => toString i) ∧
      ∀ p ∈ wRec, ∀ r, wBuild p.2 = .error r → r.data <:+: e.data)) :=
  ⟨by decide, buildRec_spec wBuild wRec (by decide)⟩

theorem map_zip_map {α β γ : Type} (f : α → β) (g : β → α → γ) :
    ∀ (l : List α), ((l.map f).zip l).map (fun q => g q.1 q.2) = l.map (fun x => g (f x) x) := by
  intro l
  induction l with
  | nil => rfl
  | cons a l ih => simp only [List.map_cons, List.zip_cons_cons, ih]

theorem buildAndPush_results (env : PushEnv) (table : String) (tt : TableContextTree) :
    (buildAndPush env table tt).1 =
      tt.map (fun q => (pushStage env table q.1 q.2 (buildRec env.build q.2)).1) := by
  unfold buildAndPush
  simp only [List.map_map]
  have := map_zip_map (fun p : String × RecordContextMap => buildRec env.build p.2)
    (fun b x => (pushStage env table x.1 x.2 b).1) tt
  rw [← this]
  simp [Function.comp]

theorem countRecsInTree_eq_sum (tree : AppFileContextTree) :
    countRecsInTree tree = (tree.map (fun p => p.2.length)).sum := by
  have h : ∀ (l : AppFileContextTree) (n : Nat),
      l.foldl (fun acc p => acc + p.2.length) n = n + (l.map (fun p => p.2.length)).sum := by
    intro l
    induction l with
    | nil => intro n; simp
    | cons hd tl ih =>
      intro n
      simp only [List.foldl_cons, List.map_cons, List.sum_cons, ih]
      omega
  simpa using h tree 0

/-- C3: for every file-context tree (with every record nonempty, as JS
crashes otherwise before producing results), `pushFiles` returns a flat
sequence with exactly one `PushResult` per record, ordered by the tree's
table enumeration and then record enumeration, each entry determined by its
own record's build and push outcome; the model is a deterministic function
of its outcome oracles, so completion timing cannot influence the order. -/
theorem pushFiles_results_ordered (env : PushEnv) (logLevel : String)
    (tree : AppFileContextTree) (recordCount : Nat)
    (_hne : ∀ p ∈ tree, ∀ q ∈ p.2, q.2 ≠ ([] : RecordContextMap)) :
    (pushFiles env logLevel tree recordCount).1 =
      tree.flatMap (fun p => p.2.map (fun q =>
        (pushStage env p.1 q.1 q.2 (buildRec env.build q.2)).1)) ∧
    (pushFiles env logLevel tree recordCount).1.length = countRecsInTree tree := by
  have hmain : (pushFiles env logLevel tree recordCount).1 =
      tree.flatMap (fun p => p.2.map (fun q =>
        (pushStage env p.1 q.1 q.2 (buildRec env.build q.2)).1)) := by
    unfold pushFiles
    simp only [List.map_map]
    rw [← List.flatMap_def]
    congr 1
    funext p
    show (buildAndPush env p.1 p.2).1 = _
    exact buildAndPush_results env p.1 p.2
  refine ⟨hmain, ?_⟩
  rw [hmain, countRecsInTree_eq_sum]
  rw [List.flatMap_def, List.length_flatten]
  congr 1
  simp [Function.comp]

/-- Sample tree and push environment for the C3 witness. -/
def wTree : AppFileContextTree :=
  [("t1", [("r1", [("script", ctxA)])]), ("t2", [("r2", [("script", ctxB)])])]

/-- Push oracle that always reports success. -/
def wPushEnv : PushEnv :=
  { build := wBuild, pushRec := fun table recId _ => .ok { success := true, message := table ++ recId } }

/-- Witness for C3 at a concrete two-table tree. -/
theorem pushFiles_results_ordered_witness :
    (∀ p ∈ wTree, ∀ q ∈ p.2, q.2 ≠ ([] : RecordContextMap)) ∧
    ((pushFiles wPushEnv "info" wTree 2).1 =
      wTree.flatMap (fun p => p.2.map (fun q =>
        (pushStage wPushEnv p.1 q.1 q.2 (buildRec wPushEnv.build q.2)).1)) ∧
    (pushFiles wPushEnv "info" wTree 2).1.length = countRecsInTree wTree) :=
  ⟨by decide, pushFiles_results_ordered wPushEnv "info" wTree 2 (by decide)⟩

/-- Environment whose every record build fails. -/
def tickBugEnv : PushEnv :=
  { build := fun _ => .error "plugin exploded",
    pushRec := fun _ _ _ => .ok { success := true, message := "pushed" } }

/-- One-table, one-record tree for the tick evaluation. -/
def tickBugTree : AppFileContextTree := [("t1", [("r1", [("script", ctxA)])])]

/-- C1: evaluation exhibiting the code bug. With the progress observer
active (log level "info") and a tree of exactly one record whose build
fails, `pushFiles` invokes the tick observer zero times, not once: the
build-failure branch of the per-record closure returns before the
`try`/`finally`, so the tick site never runs on that exit path, contrary
to the run-on-every-exit-path guarantee (and to the progress bar sized
with `total = recordCount`). -/
theorem pushFiles_tick_skipped_on_build_failure :
    countRecsInTree tickBugTree = 1 ∧
    getProgTick "info" 1 = true ∧
    (pushFiles tickBugEnv "info" tickBugTree 1).2 = 0 := by
  refine ⟨by decide, by decide, by decide⟩

/-! ### Manifest model: JSON rendering and the write pipeline -/

/-- One lowercase hex digit. -/
def hexDigit (n : Nat) : String :=
  if n < 10 then String.mk [Char.ofNat (48 + n)] else String.mk [Char.ofNat (87 + n)]

/-- JSON string escaping of one character, as `JSON.stringify` performs. -/
def escapeJSONChar (c : Char) : String :=
  if c = '"' then "\\\""
  else if c = '\\' then "\\\\"
  else if c = '\n' then "\\n"
  else if c = '\r' then "\\r"
  else if c = '\t' then "\\t"
  else if c = Char.ofNat 8 then "\\b"
  else if c = Char.ofNat 12 then "\\f"
  else if c.toNat < 32 then "\\u00" ++ hexDigit (c.toNat / 16) ++ hexDigit (c.toNat % 16)
  else String.mk [c]

/-- A JSON string literal. -/
def escapeJSONString (s : String) : String :=
  "\"" ++ String.join (s.data.map escapeJSONChar) ++ "\""

/-- `n` spaces. -/
def spacesN (n : Nat) : String := String.mk (List.replicate n ' ')

/-- A JSON object at base indent `ind` with already-rendered values,
2-space indentation as `JSON.stringify(v, null, 2)` produces. -/
def renderObjAt (ind : Nat) (fields : List (String × String)) : String :=
  match fields with
  | [] => "\x7b\x7d"
  | _ => "\x7b\n" ++
      String.intercalate ",\n"
        (fields.map (fun q => spacesN (ind + 2) ++ escapeJSONString q.1 ++ ": " ++ q.2)) ++
      "\n" ++ spacesN ind ++ "\x7d"

/-- A JSON array at base indent `ind` with already-rendered elements. -/
def renderArrAt (ind : Nat) (elems : List String) : String :=
  match elems with
  | [] => "[]"
  | _ => "[\n" ++
      String.intercalate ",\n" (elems.map (fun e => spacesN (ind + 2) ++ e)) ++
      "\n" ++ spacesN ind ++ "]"

/-- A file entry per the persistence format: name, type, then the optional
keys that are present. -/
def renderFile (ind : Nat) (f : SNFile) : String :=
  renderObjAt ind
    ([("name", escapeJSONString f.name), ("type", escapeJSONString f.type)] ++
      (match f.targetField with
       | some tf => [("targetField", escapeJSONString tf)]
       | none => []) ++
      (match f.content with
       | some c => [("content", escapeJSONString c)]
       | none => []))

/-- A record entry. -/
def renderRecord (ind : Nat) (rec : MetaRecord) : String :=
  renderObjAt ind
    [("sys_id", escapeJSONString rec.sys_id), ("name", escapeJSONString rec.name),
     ("files", renderArrAt (ind + 2) (rec.files.map (renderFile (ind + 4))))]

/-- A table entry. -/
def renderTable (ind : Nat) (tc : TableConfig) : String :=
  renderObjAt ind
    [("records", renderObjAt (ind + 2)
      (tc.records.map (fun q => (q.1, renderRecord (ind + 4) q.2))))]

/-- The tables object. -/
def renderTables (ind : Nat) (tables : TableMap) : String :=
  renderObjAt ind (tables.map (fun q => (q.1, renderTable (ind + 2) q.2)))

/-- `JSON.stringify(manifest, null, 2)` for the §6 manifest schema. -/
def renderManifest (m : AppManifest) : String :=
  renderObjAt 0 [("scope", escapeJSONString m.scope), ("tables", renderTables 2 m.tables)]

/-- Externally visible filesystem effects of the manifest pipeline. -/
inductive FsEvent where
  | mkdir (path : String)
  | fileWrite (path : String) (content : String)
  | manifestPersist (content : String)
  deriving DecidableEq, Repr

/-- Whether an event is the manifest-persist step. -/
def isPersist : FsEvent → Bool
  | .manifestPersist _ => true
  | _ => false

/-- Oracles for the local filesystem: which paths exist beforehand, which
write attempts fail, the configured source path, and the external
file-naming convention mapping a record path and file to its full path. -/
structure FsEnv where
  fs : String → Bool
  writeFails : String → Bool
  srcPath : String
  snFilePath : String → SNFile → String

/-- Modelled from the spec: `FileUtils.writeSNFileCurry` is not under src.
Per the spec it "writes each file's content to disk — overwriting only if
forceWrite is true or the file does not yet exist (never clobbers an
unforced local edit)"; `writeFails` is the failure oracle for attempted
writes. -/
def writeSNFile (env : FsEnv) (forceWrite : Bool) (recPath : String) (f : SNFile) :
    List FsEvent × Except String Unit :=
  let p := env.snFilePath recPath f
  if forceWrite || !env.fs p then
    if env.writeFails p then ([], .error ("Error writing file " ++ p))
    else ([.fileWrite p (f.content.getD "")], .ok ())
  else ([], .ok ())

/-- First rejection among settled outcomes, if any. -/
def firstError {α : Type} : List (Except String α) → Option String
  | [] => none
  | .error e :: _ => some e
  | .ok _ :: rs => firstError rs

/-- `Promise.all`: every member operation runs (all traces happen), and the
group rejects when any member rejects. -/
def gatherAll {α : Type} (rs : List (List FsEvent × Except String α)) :
    List FsEvent × Except String (List α) :=
  ((rs.map (fun r => r.1)).flatten,
   match firstError (rs.map (fun r => r.2)) with
   | some e => .error e
   | none => .ok ((rs.map (fun r => r.2)).filterMap okOf?))

/-- `delete file.content`. -/
def stripFile (f : SNFile) : SNFile := { f with content := none }

/-- The per-record content strip performed after a record's writes. -/
def stripRecord (rec : MetaRecord) : MetaRecord := { rec with files := rec.files.map stripFile }

/-- `processFilesInManRec`: write every file of one record, then strip the
transient content from the record. -/
def processFilesInManRec (env : FsEnv) (recPath : String) (rec : MetaRecord)
    (forceWrite : Bool) : List FsEvent × Except String MetaRecord :=
  ((gatherAll (rec.files.map (fun f => writeSNFile env forceWrite recPath f))).1,
   (gatherAll (rec.files.map (fun f => writeSNFile env forceWrite recPath f))).2.map
     (fun _ => stripRecord rec))

/-- `processRecsInManTable`: create every record directory, then process
every record's files; record paths use the record's display name. -/
def processRecsInManTable (env : FsEnv) (tablePath : String) (table : TableConfig)
    (forceWrite : Bool) : List FsEvent × Except String TableConfig :=
  (table.records.map (fun q => FsEvent.mkdir (pjoin tablePath q.2.name)) ++
     (gatherAll (table.records.map (fun q =>
       processFilesInManRec env (pjoin tablePath q.2.name) q.2 forceWrite))).1,
   (gatherAll (table.records.map (fun q =>
       processFilesInManRec env (pjoin tablePath q.2.name) q.2 forceWrite))).2.map
     (fun recs => { records := (table.records.map (fun q => q.1)).zip recs }))

/-- `processTablesInManifest`: process every table under the source path. -/
def processTablesInManifest (env : FsEnv) (tables : TableMap) (forceWrite : Bool) :
    List FsEvent × Except String TableMap :=
  ((gatherAll (tables.map (fun q =>
      processRecsInManTable env (pjoin env.srcPath q.1) q.2 forceWrite))).1,
   (gatherAll (tables.map (fun q =>
      processRecsInManTable env (pjoin env.srcPath q.1) q.2 forceWrite))).2.map
     (fun tcs => (tables.map (fun q => q.1)).zip tcs))

/-- `processManifest`: write all tables, and only when that whole stage
succeeded persist the (now content-stripped) manifest as indented JSON. -/
def processManifest (env : FsEnv) (manifest : AppManifest) (forceWrite : Bool) :
    List FsEvent × Except String Unit :=
  match (processTablesInManifest env manifest.tables forceWrite).2 with
  | .error e => ((processTablesInManifest env manifest.tables forceWrite).1, .error e)
  | .ok strippedTables =>
    ((processTablesInManifest env manifest.tables forceWrite).1 ++
       [.manifestPersist
         (renderManifest { scope := manifest.scope, tables := strippedTables })],
     .ok ())

/-- The fully content-stripped table map. -/
def stripTable (tc : TableConfig) : TableConfig :=
  { records := tc.records.map (fun r => (r.1, stripRecord r.2)) }

/-- The fully content-stripped table map. -/
def stripTables (tables : TableMap) : TableMap :=
  tables.map (fun q => (q.1, stripTable q.2))

/-- The manifest with every transient content removed. -/
def stripManifest (m : AppManifest) : AppManifest :=
  { scope := m.scope, tables := stripTables m.tables }

/-- Whether one file's write attempt succeeds (it is skipped, or the
attempted write does not fail). -/
def fileWriteOk (env : FsEnv) (forceWrite : Bool) (recPath : String) (f : SNFile) : Bool :=
  let p := env.snFilePath recPath f
  !(forceWrite || !env.fs p) || !env.writeFails p

/-- The claim's flat condition: every file write in every table and record
succeeds. -/
def allWritesSucceed (env : FsEnv) (tables : TableMap) (forceWrite : Bool) : Bool :=
  tables.all (fun q => q.2.records.all (fun r =>
    r.2.files.all (fileWriteOk env forceWrite (pjoin (pjoin env.srcPath q.1) r.2.name))))

theorem all_congr_of_eq {α : Type} (l : List α) (p q : α → Bool)
    (h : ∀ x ∈ l, p x = q x) : l.all p = l.all q := by
  induction l with
  | nil => rfl
  | cons hd tl ih =>
    simp only [List.all_cons]
    rw [h hd (by simp), ih (fun x hx => h x (List.mem_cons_of_mem hd hx))]

theorem firstError_eq_none_iff {α : Type} (l : List (Except String α)) :
    firstError l = none ↔ ∀ x ∈ l, exIsOk x = true := by
  induction l with
  | nil => simp [firstError]
  | cons hd tl ih =>
    cases hd with
    | error e => simp [firstError, exIsOk]
    | ok v =>
      simp only [firstError, ih]
      constructor
      · intro h x hx
        rcases List.mem_cons.mp hx with hxh | hxt
        · subst hxh; rfl
        · exact h x hxt
      · intro h x hx
        exact h x (List.mem_cons_of_mem _ hx)

theorem exIsOk_map {ε α β : Type} (f : α → β) (r : Except ε α) :
    exIsOk (r.map f) = exIsOk r := by
  cases r <;> rfl

theorem map_eq_ok_iff {ε α β : Type} (f : α → β) (r : Except ε α) (b : β) :
    r.map f = .ok b ↔ ∃ a, r = .ok a ∧ b = f a := by
  cases r with
  | error e => simp [Except.map]
  | ok a =>
    simp only [Except.map]
    constructor
    · intro h
      injection h with h
      exact ⟨a, rfl, h.symm⟩
    · rintro ⟨a', ha', hb⟩
      injection ha' with ha'
      subst ha'; subst hb; rfl

theorem gatherAll_isOk {α : Type} (rs : List (List FsEvent × Except String α)) :
    exIsOk (gatherAll rs).2 = rs.all (fun r => exIsOk r.2) := by
  unfold gatherAll
  cases hfe : firstError (rs.map (fun r => r.2)) with
  | some e =>
    simp only
    have : ¬(rs.all (fun r => exIsOk r.2) = true) := by
      intro hall
      have : firstError (rs.map (fun r => r.2)) = none := by
        rw [firstError_eq_none_iff]
        intro x hx
        obtain ⟨r, hr, hrx⟩ := List.mem_map.mp hx
        rw [← hrx]
        exact List.all_eq_true.mp hall r hr
      rw [this] at hfe
      exact Option.noConfusion hfe
    rw [Bool.not_eq_true] at this
    rw [this]
    rfl
  | none =>
    simp only
    have hall := (firstError_eq_none_iff _).mp hfe
    have : rs.all (fun r => exIsOk r.2) = true := by
      rw [List.all_eq_true]
      intro r hr
      exact hall r.2 (List.mem_map_of_mem _ hr)
    rw [this]
    rfl

theorem all_map_general {α β : Type} (l : List α) (f : α → β) (p : β → Bool) :
    (l.map f).all p = l.all (fun x => p (f x)) := by
  induction l with
  | nil => rfl
  | cons hd tl ih => simp only [List.map_cons, List.all_cons, ih]

theorem firstError_map_ok {α β : Type} (h : β → α) :
    ∀ (l : List β),
      firstError (l.map (fun x => (Except.ok (h x) : Except String α))) = none := by
  intro l
  induction l with
  | nil => rfl
  | cons hd tl ih => simpa [firstError] using ih

theorem filterMap_okOf_map_ok {α β : Type} (h : β → α) :
    ∀ (l : List β),
      (l.map (fun x => (Except.ok (h x) : Except String α))).filterMap okOf? = l.map h := by
  intro l
  induction l with
  | nil => rfl
  | cons hd tl ih => simp [okOf?, ih]

theorem gatherAll_ok_values {α β : Type} (g : β → List FsEvent × Except String α)
    (h : β → α) (l : List β) (hok : ∀ x ∈ l, (g x).2 = .ok (h x)) :
    (gatherAll (l.map g)).2 = .ok (l.map h) := by
  have hmap : (l.map g).map (fun r => r.2) =
      l.map (fun x => (Except.ok (h x) : Except String α)) := by
    rw [List.map_map]
    exact List.map_congr_left (fun x hx => hok x hx)
  unfold gatherAll
  rw [hmap]
  simp only [firstError_map_ok, filterMap_okOf_map_ok]

theorem writeSNFile_isOk (env : FsEnv) (forceWrite : Bool) (recPath : String)
    (f : SNFile) :
    exIsOk (writeSNFile env forceWrite recPath f).2 = fileWriteOk env forceWrite recPath f := by
  unfold writeSNFile fileWriteOk
  by_cases h1 : (forceWrite || !env.fs (env.snFilePath recPath f)) = true
  · by_cases h2 : env.writeFails (env.snFilePath recPath f) = true
    · simp [h1, h2, exIsOk]
    · simp only [Bool.not_eq_true] at h2
      simp [h1, h2, exIsOk]
  · simp only [Bool.not_eq_true] at h1
    simp [h1, exIsOk]

theorem processFilesInManRec_isOk (env : FsEnv) (recPath : String) (rec : MetaRecord)
    (forceWrite : Bool) :
    exIsOk (processFilesInManRec env recPath rec forceWrite).2 =
      rec.files.all (fileWriteOk env forceWrite recPath) := by
  unfold processFilesInManRec
  rw [exIsOk_map, gatherAll_isOk, all_map_general]
  exact all_congr_of_eq _ _ _
    (fun f _ => writeSNFile_isOk env forceWrite recPath f)

theorem processRecsInManTable_isOk (env : FsEnv) (tablePath : String)
    (table : TableConfig) (forceWrite : Bool) :
    exIsOk (processRecsInManTable env tablePath table forceWrite).2 =
      table.records.all (fun r =>
        r.2.files.all (fileWriteOk env forceWrite (pjoin tablePath r.2.name))) := by
  unfold processRecsInManTable
  rw [exIsOk_map, gatherAll_isOk, all_map_general]
  exact all_congr_of_eq _ _ _
    (fun q _ => processFilesInManRec_isOk env (pjoin tablePath q.2.name) q.2 forceWrite)

theorem processTablesInManifest_isOk (env : FsEnv) (tables : TableMap)
    (forceWrite : Bool) :
    exIsOk (processTablesInManifest env tables forceWrite).2 =
      allWritesSucceed env tables forceWrite := by
  unfold processTablesInManifest allWritesSucceed
  rw [exIsOk_map, gatherAll_isOk, all_map_general]
  exact all_congr_of_eq _ _ _
    (fun q _ => processRecsInManTable_isOk env (pjoin env.srcPath q.1) q.2 forceWrite)

theorem processFilesInManRec_ok_of_all (env : FsEnv) (recPath : String)
    (rec : MetaRecord) (forceWrite : Bool)
    (hall : rec.files.all (fileWriteOk env forceWrite recPath) = true) :
    (processFilesInManRec env recPath rec forceWrite).2 = .ok (stripRecord rec) := by
  have hok : exIsOk (processFilesInManRec env recPath rec forceWrite).2 = true := by
    rw [processFilesInManRec_isOk]
    exact hall
  unfold processFilesInManRec at hok ⊢
  cases hg : (gatherAll (rec.files.map (fun f => writeSNFile env forceWrite recPath f))).2 with
  | error e =>
    rw [hg] at hok
    exact absurd hok (by simp [Except.map, exIsOk])
  | ok v =>
    simp only [hg, Except.map]

theorem processRecsInManTable_ok_of_all (env : FsEnv) (tablePath : String)
    (table : TableConfig) (forceWrite : Bool)
    (hall : table.records.all (fun r =>
      r.2.files.all (fileWriteOk env forceWrite (pjoin tablePath r.2.name))) = true) :
    (processRecsInManTable env tablePath table forceWrite).2 = .ok (stripTable table) := by
  unfold processRecsInManTable
  have hvals := gatherAll_ok_values
    (fun q => processFilesInManRec env (pjoin tablePath q.2.name) q.2 forceWrite)
    (fun q => stripRecord q.2) table.records
    (fun q hq => processFilesInManRec_ok_of_all env (pjoin tablePath q.2.name) q.2 forceWrite
      (List.all_eq_true.mp hall q hq))
  rw [hvals]
  simp only [Except.map, List.zip_map']
  rfl

set_option maxHeartbeats 4000000 in
theorem processTablesInManifest_ok_of_all (env : FsEnv) (tables : TableMap)
    (forceWrite : Bool)
    (hall : allWritesSucceed env tables forceWrite = true) :
    (processTablesInManifest env tables forceWrite).2 = .ok (stripTables tables) := by
  have hall' : ∀ q ∈ tables, q.2.records.all (fun r =>
      r.2.files.all (fileWriteOk env forceWrite (pjoin (pjoin env.srcPath q.1) r.2.name))) = true := by
    unfold allWritesSucceed at hall
    exact List.all_eq_true.mp hall
  unfold processTablesInManifest
  have hvals : (gatherAll (tables.map (fun q =>
      processRecsInManTable env (pjoin env.srcPath q.1) q.2 forceWrite))).2 =
      .ok (tables.map (fun q => stripTable q.2)) :=
    gatherAll_ok_values _ _ tables
      (fun q hq => processRecsInManTable_ok_of_all env (pjoin env.srcPath q.1) q.2 forceWrite
        (hall' q hq))
  rw [hvals]
  simp only [Except.map, List.zip_map']
  rfl

theorem writeSNFile_no_persist (env : FsEnv) (forceWrite : Bool) (recPath : String)
    (f : SNFile) : ∀ e ∈ (writeSNFile env forceWrite recPath f).1, isPersist e = false := by
  intro e he
  unfold writeSNFile at he
  by_cases h1 : (forceWrite || !env.fs (env.snFilePath recPath f)) = true
  · by_cases h2 : env.writeFails (env.snFilePath recPath f) = true
    · simp [h1, h2] at he
    · simp only [Bool.not_eq_true] at h2
      simp only [h1, h2, if_true, Bool.false_eq_true, if_false, List.mem_singleton] at he
      subst he
      rfl
  · simp only [Bool.not_eq_true] at h1
    simp [h1] at he

theorem mem_gatherAll_trace {α : Type} (rs : List (List FsEvent × Except String α))
    (e : FsEvent) : e ∈ (gatherAll rs).1 ↔ ∃ r ∈ rs, e ∈ r.1 := by
  unfold gatherAll
  simp only [List.mem_flatten, List.mem_map]
  constructor
  · rintro ⟨l, ⟨r, hr, hrl⟩, hel⟩
    exact ⟨r, hr, hrl ▸ hel⟩
  · rintro ⟨r, hr, hel⟩
    exact ⟨r.1, ⟨r, hr, rfl⟩, hel⟩

theorem processFilesInManRec_no_persist (env : FsEnv) (recPath : String)
    (rec : MetaRecord) (forceWrite : Bool) :
    ∀ e ∈ (processFilesInManRec env recPath rec forceWrite).1, isPersist e = false := by
  intro e he
  unfold processFilesInManRec at he
  obtain ⟨r, hr, her⟩ := (mem_gatherAll_trace _ e).mp he
  obtain ⟨f, _, hf⟩ := List.mem_map.mp hr
  exact writeSNFile_no_persist env forceWrite recPath f e (hf ▸ her)

theorem processRecsInManTable_no_persist (env : FsEnv) (tablePath : String)
    (table : TableConfig) (forceWrite : Bool) :
    ∀ e ∈ (processRecsInManTable env tablePath table forceWrite).1, isPersist e = false := by
  intro e he
  unfold processRecsInManTable at he
  rcases List.mem_append.mp he with hd | ht
  · obtain ⟨q, _, hq⟩ := List.mem_map.mp hd
    rw [← hq]
    rfl
  · obtain ⟨r, hr, her⟩ := (mem_gatherAll_trace _ e).mp ht
    obtain ⟨q, _, hq⟩ := List.mem_map.mp hr
    exact processFilesInManRec_no_persist env (pjoin tablePath q.2.name) q.2 forceWrite e
      (hq ▸ her)

theorem processTablesInManifest_no_persist (env : FsEnv) (tables : TableMap)
    (forceWrite : Bool) :
    ∀ e ∈ (processTablesInManifest env tables forceWrite).1, isPersist e = false := by
  intro e he
  unfold processTablesInManifest at he
  obtain ⟨r, hr, her⟩ := (mem_gatherAll_trace _ e).mp he
  obtain ⟨q, _, hq⟩ := List.mem_map.mp hr
  exact processRecsInManTable_no_persist env (pjoin env.srcPath q.1) q.2 forceWrite e
    (hq ▸ her)

/-- C2: `processManifest` succeeds exactly when every file write in every
table and record succeeds, and the manifest-persist step happens exactly on
success, persisting the content-stripped manifest as 2-space-indented JSON;
on any write failure the whole operation fails and no manifest persist
occurs. -/
theorem processManifest_persist_iff_all_writes (env : FsEnv) (m : AppManifest)
    (forceWrite : Bool) :
    exIsOk (processManifest env m forceWrite).2 = allWritesSucceed env m.tables forceWrite ∧
    (processManifest env m forceWrite).1.filter isPersist =
      (if allWritesSucceed env m.tables forceWrite then
        [FsEvent.manifestPersist (renderManifest (stripManifest m))] else []) := by
  have h1 : (processTablesInManifest env m.tables forceWrite).1.filter isPersist = [] :=
    List.filter_eq_nil_iff.mpr (fun e he => by
      rw [processTablesInManifest_no_persist env m.tables forceWrite e he]
      simp)
  by_cases hall : allWritesSucceed env m.tables forceWrite = true
  · have hok := processTablesInManifest_ok_of_all env m.tables forceWrite hall
    unfold processManifest
    rw [hok]
    simp only [hall, if_true]
    refine ⟨rfl, ?_⟩
    rw [List.filter_append, h1]
    rfl
  · have hnok : exIsOk (processTablesInManifest env m.tables forceWrite).2 = false := by
      rw [processTablesInManifest_isOk]
      rw [Bool.not_eq_true] at hall
      exact hall
    rw [Bool.not_eq_true] at hall
    unfold processManifest
    cases hres : (processTablesInManifest env m.tables forceWrite).2 with
    | ok v =>
      rw [hres] at hnok
      exact absurd hnok (by simp [exIsOk])
    | error e =>
      rw [hall]
      simp only [Bool.false_eq_true, if_false]
      exact ⟨rfl, h1⟩

/-! ### Missing-file detector -/

/-- `SN.MissingFileTableMap`: sparse tableName to sys_id to list of
(name, type) pairs. -/
abbrev MissingFileTableMap := AList (AList (List (String × String)))

/-- `markFileMissing`: create the table and record entries if absent, then
push the file's (name, type). -/
def markFileMissing (missingObj : MissingFileTableMap) (table recordId : String)
    (f : SNFile) : MissingFileTableMap :=
  alUpd missingObj table []
    (fun tbl => alUpd tbl recordId [] (fun lst => lst ++ [(f.name, f.type)]))

/-- `markRecordMissing`: mark every file of the record. -/
def markRecordMissing (m : MissingFileTableMap) (table : String) (rec : MetaRecord) :
    MissingFileTableMap :=
  rec.files.foldl (fun m f => markFileMissing m table rec.sys_id f) m

/-- `markTableMissing`: mark every record of the table. -/
def markTableMissing (m : MissingFileTableMap) (tableName : String) (table : TableConfig) :
    MissingFileTableMap :=
  table.records.foldl (fun m q => markRecordMissing m tableName q.2) m

/-- One file's probe-and-mark step of `checkFilesForMissing`.
`SNFileExists` is modelled from the spec (FileUtils is not under src): a
missing file is one "declared in the manifest but absent locally at its
expected path", the expected path given by the same external naming oracle
as writes. -/
def checkFileStep (env : FsEnv) (table recordId recPath : String)
    (m : MissingFileTableMap) (f : SNFile) : MissingFileTableMap :=
  if env.fs (env.snFilePath recPath f) then m else markFileMissing m table recordId f

/-- `checkFilesForMissing`: probe every file of a present record and mark
the absent ones; the second component lists the issued file probes. -/
def checkFilesForMissing (env : FsEnv) (table recordId recPath : String)
    (files : List SNFile) (m : MissingFileTableMap) :
    MissingFileTableMap × List String :=
  (files.foldl (checkFileStep env table recordId recPath) m,
   files.map (fun f => env.snFilePath recPath f))

/-- One record's step of `checkRecordsForMissing`: an absent record
directory marks the whole record with no further probes; a present one
probes its files. Record paths join the table path with the record key. -/
def checkRecordStep (env : FsEnv) (table tablePath : String)
    (acc : MissingFileTableMap × List String) (q : String × MetaRecord) :
    MissingFileTableMap × List String :=
  if env.fs (pjoin tablePath q.1) then
    ((checkFilesForMissing env table q.2.sys_id (pjoin tablePath q.1) q.2.files acc.1).1,
     acc.2 ++ (checkFilesForMissing env table q.2.sys_id (pjoin tablePath q.1) q.2.files acc.1).2)
  else (markRecordMissing acc.1 table q.2, acc.2)

/-- `checkRecordsForMissing`: probe every record directory of a present
table, then handle each record. -/
def checkRecordsForMissing (env : FsEnv) (table tablePath : String)
    (records : AList MetaRecord) (m : MissingFileTableMap) :
    MissingFileTableMap × List String :=
  records.foldl (checkRecordStep env table tablePath)
    (m, records.map (fun q => pjoin tablePath q.1))

/-- The sub-table work of `checkTablesForMissing` for one table whose
directory-existence check is already done: absent means `markTableMissing`
with zero probes below the table level. -/
def checkOneTable (env : FsEnv) (tableName : String) (tc : TableConfig)
    (m : MissingFileTableMap) : MissingFileTableMap × List String :=
  if env.fs (pjoin env.srcPath tableName) then
    checkRecordsForMissing env tableName (pjoin env.srcPath tableName) tc.records m
  else (markTableMissing m tableName tc, [])

/-- One table's step of the tables fold. -/
def checkTableStep (env : FsEnv) (acc : MissingFileTableMap × List String)
    (q : String × TableConfig) : MissingFileTableMap × List String :=
  ((checkOneTable env q.1 q.2 acc.1).1, acc.2 ++ (checkOneTable env q.1 q.2 acc.1).2)

/-- `checkTablesForMissing`: probe every table directory, then handle each
table. -/
def checkTablesForMissing (env : FsEnv) (tables : TableMap) (m : MissingFileTableMap) :
    MissingFileTableMap × List String :=
  tables.foldl (checkTableStep env) (m, tables.map (fun q => pjoin env.srcPath q.1))

/-- `findMissingFiles`: walk the manifest tables against the local tree,
starting from an empty missing map; the second component is the full probe
trace. -/
def findMissingFiles (env : FsEnv) (tables : TableMap) :
    MissingFileTableMap × List String :=
  checkTablesForMissing env tables []

/-- Membership of one (name, type) pair under a table and sys_id of a
missing map. -/
def missingHas (m : MissingFileTableMap) (t s : String) (nt : String × String) : Prop :=
  ∃ recMap, alGet m t = some recMap ∧ ∃ lst, alGet recMap s = some lst ∧ nt ∈ lst

theorem missingHas_mark_self (m : MissingFileTableMap) (t s : String) (f : SNFile) :
    missingHas (markFileMissing m t s f) t s (f.name, f.type) := by
  unfold markFileMissing missingHas
  rw [alGet_alUpd, if_pos rfl]
  refine ⟨_, rfl, ?_⟩
  rw [alGet_alUpd, if_pos rfl]
  exact ⟨_, rfl, by simp⟩

theorem missingHas_mark_mono (m : MissingFileTableMap) (t s t' s' : String)
    (nt : String × String) (f : SNFile) (h : missingHas m t s nt) :
    missingHas (markFileMissing m t' s' f) t s nt := by
  obtain ⟨recMap, hrm, lst, hlst, hnt⟩ := h
  unfold markFileMissing missingHas
  rw [alGet_alUpd]
  by_cases ht : t' = t
  · subst ht
    rw [if_pos rfl, hrm]
    simp only [Option.getD_some]
    refine ⟨_, rfl, ?_⟩
    rw [alGet_alUpd]
    by_cases hs : s' = s
    · subst hs
      rw [if_pos rfl, hlst]
      simp only [Option.getD_some]
      exact ⟨_, rfl, List.mem_append_left _ hnt⟩
    · rw [if_neg hs]
      exact ⟨lst, hlst, hnt⟩
  · rw [if_neg ht]
    exact ⟨recMap, hrm, lst, hlst, hnt⟩

theorem missingHas_ne_nil (m : MissingFileTableMap) (t s : String)
    (nt : String × String) (h : missingHas m t s nt) : m ≠ [] := by
  obtain ⟨recMap, hrm, _⟩ := h
  intro he
  rw [he] at hrm
  simp [alGet] at hrm

theorem foldl_missing_mono {β : Type} (step : MissingFileTableMap → β → MissingFileTableMap)
    (hstep : ∀ m b t s nt, missingHas m t s nt → missingHas (step m b) t s nt) :
    ∀ (l : List β) (m : MissingFileTableMap) (t s : String) (nt : String × String),
      missingHas m t s nt → missingHas (l.foldl step m) t s nt := by
  intro l
  induction l with
  | nil => intro m t s nt h; exact h
  | cons hd tl ih => intro m t s nt h; exact ih _ _ _ _ (hstep m hd t s nt h)

theorem foldl_pair_missing_mono {β : Type}
    (step : (MissingFileTableMap × List String) → β → (MissingFileTableMap × List String))
    (hstep : ∀ acc b t s nt, missingHas acc.1 t s nt → missingHas (step acc b).1 t s nt) :
    ∀ (l : List β) (acc : MissingFileTableMap × List String) (t s : String)
      (nt : String × String),
      missingHas acc.1 t s nt → missingHas (l.foldl step acc).1 t s nt := by
  intro l
  induction l with
  | nil => intro acc t s nt h; exact h
  | cons hd tl ih => intro acc t s nt h; exact ih _ _ _ _ (hstep acc hd t s nt h)

theorem missingHas_markRecord_mono (table : String) (rec : MetaRecord)
    (m : MissingFileTableMap) (t s : String) (nt : String × String)
    (h : missingHas m t s nt) : missingHas (markRecordMissing m table rec) t s nt := by
  unfold markRecordMissing
  exact foldl_missing_mono _ (fun m f t s nt h => missingHas_mark_mono m t s table rec.sys_id nt f h)
    rec.files m t s nt h

theorem missingHas_markRecord_self (table : String) (rec : MetaRecord)
    (m : MissingFileTableMap) (f : SNFile) (hf : f ∈ rec.files) :
    missingHas (markRecordMissing m table rec) table rec.sys_id (f.name, f.type) := by
  unfold markRecordMissing
  have hgen : ∀ (files : List SNFile) (m : MissingFileTableMap), f ∈ files →
      missingHas (files.foldl (fun m g => markFileMissing m table rec.sys_id g) m)
        table rec.sys_id (f.name, f.type) := by
    intro files
    induction files with
    | nil => intro m h; exact absurd h (List.not_mem_nil f)
    | cons hd tl ih =>
      intro m h
      rcases List.mem_cons.mp h with hh | ht
      · subst hh
        exact foldl_missing_mono _
          (fun m g t s nt h => missingHas_mark_mono m t s table rec.sys_id nt g h)
          tl _ _ _ _ (missingHas_mark_self m table rec.sys_id f)
      · exact ih _ ht
  exact hgen rec.files m hf

theorem missingHas_markTable_mono (tableName : String) (tc : TableConfig)
    (m : MissingFileTableMap) (t s : String) (nt : String × String)
    (h : missingHas m t s nt) : missingHas (markTableMissing m tableName tc) t s nt := by
  unfold markTableMissing
  exact foldl_missing_mono _
    (fun m q t s nt h => missingHas_markRecord_mono tableName q.2 m t s nt h)
    tc.records m t s nt h

theorem missingHas_markTable_self (tableName : String) (tc : TableConfig)
    (m : MissingFileTableMap) (rk : String) (rec : MetaRecord) (f : SNFile)
    (hq : (rk, rec) ∈ tc.records) (hf : f ∈ rec.files) :
    missingHas (markTableMissing m tableName tc) tableName rec.sys_id (f.name, f.type) := by
  unfold markTableMissing
  have hgen : ∀ (records : AList MetaRecord) (m : MissingFileTableMap), (rk, rec) ∈ records →
      missingHas (records.foldl (fun m q => markRecordMissing m tableName q.2) m)
        tableName rec.sys_id (f.name, f.type) := by
    intro records
    induction records with
    | nil => intro m h; exact absurd h (List.not_mem_nil _)
    | cons hd tl ih =>
      intro m h
      rcases List.mem_cons.mp h with hh | ht
      · rw [← hh]
        exact foldl_missing_mono _
          (fun m q t s nt h => missingHas_markRecord_mono tableName q.2 m t s nt h)
          tl _ _ _ _ (missingHas_markRecord_self tableName rec m f hf)
      · exact ih _ ht
  exact hgen tc.records m hq

theorem checkFileStep_mono (env : FsEnv) (table recordId recPath : String)
    (m : MissingFileTableMap) (f : SNFile) (t s : String) (nt : String × String)
    (h : missingHas m t s nt) :
    missingHas (checkFileStep env table recordId recPath m f) t s nt := by
  unfold checkFileStep
  by_cases hp : env.fs (env.snFilePath recPath f) = true
  · rw [if_pos hp]; exact h
  · rw [Bool.not_eq_true] at hp
    rw [hp]
    simp only [Bool.false_eq_true, if_false]
    exact missingHas_mark_mono m t s table recordId nt f h

theorem checkFiles_reach (env : FsEnv) (table recordId recPath : String) (f : SNFile) :
    ∀ (files : List SNFile) (m : MissingFileTableMap), f ∈ files →
      env.fs (env.snFilePath recPath f) = false →
      missingHas (files.foldl (checkFileStep env table recordId recPath) m)
        table recordId (f.name, f.type) := by
  intro files
  induction files with
  | nil => intro m h _; exact absurd h (List.not_mem_nil f)
  | cons hd tl ih =>
    intro m h habs
    rcases List.mem_cons.mp h with hh | ht
    · subst hh
      have hstep : checkFileStep env table recordId recPath m f =
          markFileMissing m table recordId f := by
        unfold checkFileStep
        rw [habs]
        simp
      rw [List.foldl_cons, hstep]
      exact foldl_missing_mono _ (checkFileStep_mono env table recordId recPath)
        tl _ _ _ _ (missingHas_mark_self m table recordId f)
    · exact ih _ ht habs

theorem checkRecordStep_mono (env : FsEnv) (table tablePath : String)
    (acc : MissingFileTableMap × List String) (q : String × MetaRecord)
    (t s : String) (nt : String × String) (h : missingHas acc.1 t s nt) :
    missingHas (checkRecordStep env table tablePath acc q).1 t s nt := by
  unfold checkRecordStep
  by_cases hp : env.fs (pjoin tablePath q.1) = true
  · rw [if_pos hp]
    exact foldl_missing_mono _ (checkFileStep_mono env table q.2.sys_id (pjoin tablePath q.1))
      q.2.files acc.1 t s nt h
  · rw [Bool.not_eq_true] at hp
    rw [hp]
    simp only [Bool.false_eq_true, if_false]
    exact missingHas_markRecord_mono table q.2 acc.1 t s nt h

theorem checkRecords_reach (env : FsEnv) (table tablePath : String)
    (rk : String) (rec : MetaRecord) (f : SNFile) :
    ∀ (records : AList MetaRecord) (acc : MissingFileTableMap × List String),
      (rk, rec) ∈ records → f ∈ rec.files →
      (env.fs (pjoin tablePath rk) = false ∨
        (env.fs (pjoin tablePath rk) = true ∧
          env.fs (env.snFilePath (pjoin tablePath rk) f) = false)) →
      missingHas (records.foldl (checkRecordStep env table tablePath) acc).1
        table rec.sys_id (f.name, f.type) := by
  intro records
  induction records with
  | nil => intro acc h _ _; exact absurd h (List.not_mem_nil _)
  | cons hd tl ih =>
    intro acc h hf hscen
    rcases List.mem_cons.mp h with hh | ht
    · rw [List.foldl_cons]
      refine foldl_pair_missing_mono _ (checkRecordStep_mono env table tablePath) tl _ _ _ _ ?_
      rw [← hh]
      rcases hscen with habs | ⟨hdir, hfile⟩
      · have hstep : checkRecordStep env table tablePath acc (rk, rec) =
            (markRecordMissing acc.1 table rec, acc.2) := by
          unfold checkRecordStep
          simp only [habs, Bool.false_eq_true, if_false]
        rw [hstep]
        exact missingHas_markRecord_self table rec acc.1 f hf
      · have hstep : (checkRecordStep env table tablePath acc (rk, rec)).1 =
            (rec.files.foldl (checkFileStep env table rec.sys_id (pjoin tablePath rk)) acc.1) := by
          unfold checkRecordStep
          simp only [hdir, if_true]
          rfl
        rw [hstep]
        exact checkFiles_reach env table rec.sys_id (pjoin tablePath rk) f rec.files acc.1 hf hfile
    · exact ih _ ht hf hscen

theorem checkOneTable_mono (env : FsEnv) (tableName : String) (tc : TableConfig)
    (m : MissingFileTableMap) (t s : String) (nt : String × String)
    (h : missingHas m t s nt) :
    missingHas (checkOneTable env tableName tc m).1 t s nt := by
  unfold checkOneTable
  by_cases hp : env.fs (pjoin env.srcPath tableName) = true
  · rw [if_pos hp]
    unfold checkRecordsForMissing
    exact foldl_pair_missing_mono _ (checkRecordStep_mono env tableName (pjoin env.srcPath tableName))
      tc.records _ t s nt h
  · rw [Bool.not_eq_true] at hp
    rw [hp]
    simp only [Bool.false_eq_true, if_false]
    exact missingHas_markTable_mono tableName tc m t s nt h

theorem checkTableStep_mono (env : FsEnv) (acc : MissingFileTableMap × List String)
    (q : String × TableConfig) (t s : String) (nt : String × String)
    (h : missingHas acc.1 t s nt) :
    missingHas (checkTableStep env acc q).1 t s nt :=
  checkOneTable_mono env q.1 q.2 acc.1 t s nt h

theorem checkTables_reach (env : FsEnv) (tn : String) (tc : TableConfig)
    (rk : String) (rec : MetaRecord) (f : SNFile) :
    ∀ (tables : TableMap) (acc : MissingFileTableMap × List String),
      (tn, tc) ∈ tables → (rk, rec) ∈ tc.records → f ∈ rec.files →
      (env.fs (pjoin env.srcPath tn) = false ∨
        (env.fs (pjoin env.srcPath tn) = true ∧
          (env.fs (pjoin (pjoin env.srcPath tn) rk) = false ∨
            (env.fs (pjoin (pjoin env.srcPath tn) rk) = true ∧
              env.fs (env.snFilePath (pjoin (pjoin env.srcPath tn) rk) f) = false)))) →
      missingHas (tables.foldl (checkTableStep env) acc).1 tn rec.sys_id (f.name, f.type) := by
  intro tables
  induction tables with
  | nil => intro acc h _ _ _; exact absurd h (List.not_mem_nil _)
  | cons hd tl ih =>
    intro acc h hq hf hscen
    rcases List.mem_cons.mp h with hh | ht
    · rw [List.foldl_cons]
      refine foldl_pair_missing_mono _ (checkTableStep_mono env) tl _ _ _ _ ?_
      rw [← hh]
      show missingHas (checkOneTable env tn tc acc.1).1 tn rec.sys_id (f.name, f.type)
      rcases hscen with habs | ⟨hdir, hrest⟩
      · have hstep : checkOneTable env tn tc acc.1 = (markTableMissing acc.1 tn tc, []) := by
          unfold checkOneTable
          simp only [habs, Bool.false_eq_true, if_false]
        rw [hstep]
        exact missingHas_markTable_self tn tc acc.1 rk rec f hq hf
      · have hstep : checkOneTable env tn tc acc.1 =
            checkRecordsForMissing env tn (pjoin env.srcPath tn) tc.records acc.1 := by
          unfold checkOneTable
          simp only [hdir, if_true]
        rw [hstep]
        unfold checkRecordsForMissing
        exact checkRecords_reach env tn (pjoin env.srcPath tn) rk rec f tc.records _ hq hf hrest
    · exact ih _ ht hq hf hscen

theorem checkFiles_preserve (env : FsEnv) (table recordId recPath : String) :
    ∀ (files : List SNFile) (m : MissingFileTableMap),
      (∀ f ∈ files, env.fs (env.snFilePath recPath f) = true) →
      files.foldl (checkFileStep env table recordId recPath) m = m := by
  intro files
  induction files with
  | nil => intro m _; rfl
  | cons hd tl ih =>
    intro m hall
    rw [List.foldl_cons]
    have hstep : checkFileStep env table recordId recPath m hd = m := by
      unfold checkFileStep
      rw [hall hd (by simp)]
      simp
    rw [hstep]
    exact ih m (fun f hf => hall f (List.mem_cons_of_mem hd hf))

theorem markRecord_empty (table : String) (rec : MetaRecord) (m : MissingFileTableMap)
    (h : rec.files = []) : markRecordMissing m table rec = m := by
  unfold markRecordMissing
  rw [h]
  rfl

theorem markTable_empty (tableName : String) (tc : TableConfig) (m : MissingFileTableMap)
    (h : ∀ q ∈ tc.records, q.2.files = []) : markTableMissing m tableName tc = m := by
  unfold markTableMissing
  have hgen : ∀ (records : AList MetaRecord) (m : MissingFileTableMap),
      (∀ q ∈ records, q.2.files = []) →
      records.foldl (fun m q => markRecordMissing m tableName q.2) m = m := by
    intro records
    induction records with
    | nil => intro m _; rfl
    | cons hd tl ih =>
      intro m hall
      rw [List.foldl_cons, markRecord_empty tableName hd.2 m (hall hd (by simp))]
      exact ih m (fun q hq => hall q (List.mem_cons_of_mem hd hq))
  exact hgen tc.records m h

/-- The per-record condition letting the detector record no entry: every
file present at its probed path, and an absent record directory only for a
record declaring no files. -/
def recOk (env : FsEnv) (tablePath : String) (q : String × MetaRecord) : Prop :=
  (∀ f ∈ q.2.files, env.fs (env.snFilePath (pjoin tablePath q.1) f) = true) ∧
  (env.fs (pjoin tablePath q.1) = false → q.2.files = [])

theorem checkRecordStep_preserve (env : FsEnv) (table tablePath : String)
    (acc : MissingFileTableMap × List String) (q : String × MetaRecord)
    (h : recOk env tablePath q) :
    (checkRecordStep env table tablePath acc q).1 = acc.1 := by
  unfold checkRecordStep
  by_cases hp : env.fs (pjoin tablePath q.1) = true
  · rw [if_pos hp]
    exact checkFiles_preserve env table q.2.sys_id (pjoin tablePath q.1) q.2.files acc.1 h.1
  · rw [Bool.not_eq_true] at hp
    rw [hp]
    simp only [Bool.false_eq_true, if_false]
    exact markRecord_empty table q.2 acc.1 (h.2 hp)

theorem checkRecords_fold_preserve (env : FsEnv) (table tablePath : String) :
    ∀ (records : AList MetaRecord) (acc : MissingFileTableMap × List String),
      (∀ q ∈ records, recOk env tablePath q) →
      (records.foldl (checkRecordStep env table tablePath) acc).1 = acc.1 := by
  intro records
  induction records with
  | nil => intro acc _; rfl
  | cons hd tl ih =>
    intro acc hall
    rw [List.foldl_cons]
    rw [ih _ (fun q hq => hall q (List.mem_cons_of_mem hd hq))]
    exact checkRecordStep_preserve env table tablePath acc hd (hall hd (by simp))

/-- The per-table condition letting the detector record no entry. -/
def tableOk (env : FsEnv) (q : String × TableConfig) : Prop :=
  (env.fs (pjoin env.srcPath q.1) = true →
    ∀ r ∈ q.2.records, recOk env (pjoin env.srcPath q.1) r) ∧
  (env.fs (pjoin env.srcPath q.1) = false → ∀ r ∈ q.2.records, r.2.files = [])

theorem checkTableStep_preserve (env : FsEnv) (acc : MissingFileTableMap × List String)
    (q : String × TableConfig) (h : tableOk env q) :
    (checkTableStep env acc q).1 = acc.1 := by
  show (checkOneTable env q.1 q.2 acc.1).1 = acc.1
  unfold checkOneTable
  by_cases hp : env.fs (pjoin env.srcPath q.1) = true
  · rw [if_pos hp]
    unfold checkRecordsForMissing
    exact checkRecords_fold_preserve env q.1 (pjoin env.srcPath q.1) q.2.records _ (h.1 hp)
  · rw [Bool.not_eq_true] at hp
    rw [hp]
    simp only [Bool.false_eq_true, if_false]
    exact markTable_empty q.1 q.2 acc.1 (h.2 hp)

theorem checkTables_fold_preserve (env : FsEnv) :
    ∀ (tables : TableMap) (acc : MissingFileTableMap × List String),
      (∀ q ∈ tables, tableOk env q) →
      (tables.foldl (checkTableStep env) acc).1 = acc.1 := by
  intro tables
  induction tables with
  | nil => intro acc _; rfl
  | cons hd tl ih =>
    intro acc hall
    rw [List.foldl_cons]
    rw [ih _ (fun q hq => hall q (List.mem_cons_of_mem hd hq))]
    exact checkTableStep_preserve env acc hd (hall hd (by simp))

/-- Every manifest-declared file is present on disk at its probed path. -/
def allFilesPresent (env : FsEnv) (tables : TableMap) : Prop :=
  ∀ q ∈ tables, ∀ r ∈ q.2.records, ∀ f ∈ r.2.files,
    env.fs (env.snFilePath (pjoin (pjoin env.srcPath q.1) r.1) f) = true

/-- Real-filesystem consistency over the declared files: a file cannot
exist below an absent record or table directory. -/
def fsConsistent (env : FsEnv) (tables : TableMap) : Prop :=
  ∀ q ∈ tables, ∀ r ∈ q.2.records, ∀ f ∈ r.2.files,
    env.fs (env.snFilePath (pjoin (pjoin env.srcPath q.1) r.1) f) = true →
      env.fs (pjoin (pjoin env.srcPath q.1) r.1) = true ∧
      env.fs (pjoin env.srcPath q.1) = true

/-- C5: on a consistent filesystem, `findMissingFiles` returns the empty
map exactly when every manifest-declared file is present on disk: no false
positives when everything is present, and any absent declared file yields a
nonempty missing map. -/
theorem findMissingFiles_empty_iff (env : FsEnv) (tables : TableMap)
    (hcons : fsConsistent env tables) :
    (findMissingFiles env tables).1 = [] ↔ allFilesPresent env tables := by
  constructor
  · intro hempty
    by_contra hnp
    unfold allFilesPresent at hnp
    push_neg at hnp
    obtain ⟨q, hq, r, hr, f, hf, habs⟩ := hnp
    rw [ne_eq, Bool.not_eq_true] at habs
    have hscen : env.fs (pjoin env.srcPath q.1) = false ∨
        (env.fs (pjoin env.srcPath q.1) = true ∧
          (env.fs (pjoin (pjoin env.srcPath q.1) r.1) = false ∨
            (env.fs (pjoin (pjoin env.srcPath q.1) r.1) = true ∧
              env.fs (env.snFilePath (pjoin (pjoin env.srcPath q.1) r.1) f) = false))) := by
      by_cases h1 : env.fs (pjoin env.srcPath q.1) = true
      · refine Or.inr ⟨h1, ?_⟩
        by_cases h2 : env.fs (pjoin (pjoin env.srcPath q.1) r.1) = true
        · exact Or.inr ⟨h2, habs⟩
        · rw [Bool.not_eq_true] at h2
          exact Or.inl h2
      · rw [Bool.not_eq_true] at h1
        exact Or.inl h1
    have hq' : (q.1, q.2) ∈ tables := by
      rw [Prod.mk.eta]
      exact hq
    have hr' : (r.1, r.2) ∈ q.2.records := by
      rw [Prod.mk.eta]
      exact hr
    have hreach := checkTables_reach env q.1 q.2 r.1 r.2 f tables
      ([], tables.map (fun p => pjoin env.srcPath p.1)) hq' hr' hf hscen
    have hne := missingHas_ne_nil _ _ _ _ hreach
    exact hne hempty
  · intro hpres
    have hT : ∀ q ∈ tables, tableOk env q := by
      intro q hq
      constructor
      · intro _ r hr
        constructor
        · intro f hf
          exact hpres q hq r hr f hf
        · intro hrdir
          rw [List.eq_nil_iff_forall_not_mem]
          intro f hf
          have hc := hcons q hq r hr f hf (hpres q hq r hr f hf)
          rw [hc.1] at hrdir
          exact Bool.noConfusion hrdir
      · intro htdir r hr
        rw [List.eq_nil_iff_forall_not_mem]
        intro f hf
        have hc := hcons q hq r hr f hf (hpres q hq r hr f hf)
        rw [hc.2] at htdir
        exact Bool.noConfusion htdir
    exact checkTables_fold_preserve env tables _ hT

/-- C6: for a manifest table whose directory is absent, the detector's
sub-table work issues zero filesystem probes (its probe list is empty: no
record-directory and no file-existence checks for that table), and
`findMissingFiles` reports every file of every record beneath that table
as missing. -/
theorem findMissingFiles_absent_table (env : FsEnv) (tables : TableMap)
    (m : MissingFileTableMap) (tn : String) (tc : TableConfig)
    (hmem : (tn, tc) ∈ tables)
    (habs : env.fs (pjoin env.srcPath tn) = false) :
    (checkOneTable env tn tc m).2 = [] ∧
    ∀ rk rec, (rk, rec) ∈ tc.records → ∀ f ∈ rec.files,
      missingHas (findMissingFiles env tables).1 tn rec.sys_id (f.name, f.type) := by
  constructor
  · unfold checkOneTable
    rw [habs]
    simp
  · intro rk rec hq f hf
    exact checkTables_reach env tn tc rk rec f tables
      ([], tables.map (fun p => pjoin env.srcPath p.1)) hmem hq hf (Or.inl habs)

/-- Concrete file for the detector witnesses. -/
def wFile : SNFile := { name := "script.js", type := "js" }

/-- Concrete record for the detector witnesses. -/
def wMeta : MetaRecord := { sys_id := "abc", name := "r1", files := [wFile] }

/-- Concrete table map for the detector witnesses. -/
def wTables : TableMap := [("t1", { records := [("r1", wMeta)] })]

/-- Environment with every declared path present. -/
def wEnvPresent : FsEnv :=
  { fs := fun p => p == "src/t1" || p == "src/t1/r1" || p == "src/t1/r1/script.js",
    writeFails := fun _ => false,
    srcPath := "src",
    snFilePath := fun p f => pjoin p f.name }

/-- Environment with nothing on disk. -/
def wEnvAbsent : FsEnv :=
  { fs := fun _ => false,
    writeFails := fun _ => false,
    srcPath := "src",
    snFilePath := fun p f => pjoin p f.name }

/-- Witness for C5 at a concrete fully-present manifest. -/
theorem findMissingFiles_empty_iff_witness :
    fsConsistent wEnvPresent wTables ∧
    ((findMissingFiles wEnvPresent wTables).1 = [] ↔ allFilesPresent wEnvPresent wTables) :=
  ⟨by unfold fsConsistent; decide,
    findMissingFiles_empty_iff wEnvPresent wTables (by unfold fsConsistent; decide)⟩

/-- Witness for C6 at a concrete manifest whose table directory is absent. -/
theorem findMissingFiles_absent_table_witness :
    (("t1", ({ records := [("r1", wMeta)] } : TableConfig)) ∈ wTables) ∧
    wEnvAbsent.fs (pjoin wEnvAbsent.srcPath "t1") = false ∧
    (checkOneTable wEnvAbsent "t1" { records := [("r1", wMeta)] } []).2 = [] ∧
    missingHas (findMissingFiles wEnvAbsent wTables).1 "t1" "abc" ("script.js", "js") := by
  have h := findMissingFiles_absent_table wEnvAbsent wTables [] "t1"
    { records := [("r1", wMeta)] } (by decide) (by decide)
  exact ⟨by decide, by decide, h.1, h.2 "r1" wMeta (by decide) wFile (by decide)⟩

/-! ### Remote reconciler -/

/-- `processMissingFiles`: find what is missing, fetch exactly those files
through the remote oracle, and write the returned fragment through the
table-write stage with `forceWrite = false`; the manifest-persist step is
never invoked. -/
def processMissingFiles (env : FsEnv) (getMissingFiles : MissingFileTableMap → TableMap)
    (newManifest : AppManifest) : List FsEvent × Except String Unit :=
  ((processTablesInManifest env
      (getMissingFiles (findMissingFiles env newManifest.tables).1) false).1,
   (processTablesInManifest env
      (getMissingFiles (findMissingFiles env newManifest.tables).1) false).2.map
     (fun _ => ()))

/-- C10: a reconciliation run writes only through the table-write stage
(with forceWrite false) and never emits the manifest-persist event, so the
manifest file on disk is untouched even when the run fully succeeds. -/
theorem processMissingFiles_no_manifest_persist (env : FsEnv)
    (getMissingFiles : MissingFileTableMap → TableMap) (man : AppManifest) :
    (processMissingFiles env getMissingFiles man).1.filter isPersist = [] ∧
    (processMissingFiles env getMissingFiles man).1 =
      (processTablesInManifest env
        (getMissingFiles (findMissingFiles env man.tables).1) false).1 := by
  refine ⟨?_, rfl⟩
  exact List.filter_eq_nil_iff.mpr (fun e he => by
    rw [processTablesInManifest_no_persist env
      (getMissingFiles (findMissingFiles env man.tables).1) false e he]
    simp)

/-! ### Update set manager -/

/-- Remote calls of the update-set flow. -/
inductive UpdateSetCall where
  | createUpdateSet (name : String)
  | getUserSysId
  | getCurrentUpdateSetUserPref (userSysId : String)
  | updateCurrentUpdateSetUserPref (updateSetSysId prefId : String)
  | createCurrentUpdateSetUserPref (updateSetSysId userSysId : String)
  deriving DecidableEq, Repr

/-- Oracles for the update-set remote responses (each one the value the
response-processing collaborator extracts). -/
structure UpdateSetEnv where
  createUpdateSetId : String → String
  userSysId : String
  updateSetUserPrefId : String

/-- `createAndAssignUpdateSet`: the body unconditionally creates the update
set, resolves the user's preference record, updates it when present or
creates it otherwise, and returns the created unit's name and id. There is
no blank-name check in the body, despite the function's doc comment. -/
def createAndAssignUpdateSet (env : UpdateSetEnv) (updateSetName : String) :
    List UpdateSetCall × (String × String) :=
  (([UpdateSetCall.createUpdateSet updateSetName, UpdateSetCall.getUserSysId,
     UpdateSetCall.getCurrentUpdateSetUserPref env.userSysId] ++
    (if env.updateSetUserPrefId ≠ "" then
      [UpdateSetCall.updateCurrentUpdateSetUserPref
        (env.createUpdateSetId updateSetName) env.updateSetUserPrefId]
     else
      [UpdateSetCall.createCurrentUpdateSetUserPref
        (env.createUpdateSetId updateSetName) env.userSysId])),
   (updateSetName, env.createUpdateSetId updateSetName))

/-- Concrete update-set environment. -/
def wUpdEnv : UpdateSetEnv :=
  { createUpdateSetId := fun _ => "us1", userSysId := "u1", updateSetUserPrefId := "p1" }

/-- C7: evaluation exhibiting the code bug. Called with a blank name, the
function is not a no-op: it still issues the remote create (with the blank
name), still rewires the user's active-update-set preference, and returns a
created unit — contradicting its own doc comment, "does not create update
set if value is blank". -/
theorem createAndAssignUpdateSet_blank_not_noop :
    createAndAssignUpdateSet wUpdEnv "" =
      ([UpdateSetCall.createUpdateSet "", UpdateSetCall.getUserSysId,
        UpdateSetCall.getCurrentUpdateSetUserPref "u1",
        UpdateSetCall.updateCurrentUpdateSetUserPref "us1" "p1"], ("", "us1")) := by
  decide

/-! ### Scope guard -/

/-- Remote calls of the scope flow. -/
inductive ScopeCall where
  | getCurrentScope
  | getScopeId (scope : String)
  | getUserSysId
  | getCurrentAppUserPrefSysId (userSysId : String)
  | updateCurrentAppUserPref (scopeId prefId : String)
  | createCurrentAppUserPref (scopeId userSysId : String)
  deriving DecidableEq, Repr

/-- Whether a scope call mutates remote state. -/
def isScopeMutation : ScopeCall → Bool
  | .updateCurrentAppUserPref _ _ => true
  | .createCurrentAppUserPref _ _ => true
  | _ => false

/-- Oracles for the scope remote responses: the active scope at the first
read, scope-name resolution, the user and preference-record ids (empty
string when no preference record exists, per the `|| ""`), and the active
scope re-read after a swap. -/
structure ScopeEnv where
  currentScope : String
  scopeIdOf : String → String
  userSysId : String
  appUserPrefId : String
  postSwapScope : String

/-- `ScopeCheckResult`; the source field `match` is a Lean keyword and is
embedded as `matched`. -/
structure ScopeCheckResult where
  matched : Bool
  sessionScope : String
  manifestScope : String
  deriving DecidableEq, Repr

/-- `swapServerScope`: read the user's id and scope-preference record, then
update it when it exists or create it otherwise. -/
def swapServerScope (env : ScopeEnv) (scopeId : String) : List ScopeCall :=
  [ScopeCall.getUserSysId, ScopeCall.getCurrentAppUserPrefSysId env.userSysId] ++
  (if env.appUserPrefId ≠ "" then
    [ScopeCall.updateCurrentAppUserPref scopeId env.appUserPrefId]
   else
    [ScopeCall.createCurrentAppUserPref scopeId env.userSysId])

/-- `swapScope`: resolve the target scope's id, swap the server-side
preference, and re-read the active scope. -/
def swapScope (env : ScopeEnv) (currentScope : String) : List ScopeCall × String :=
  ([ScopeCall.getScopeId currentScope] ++
     swapServerScope env (env.scopeIdOf currentScope) ++ [ScopeCall.getCurrentScope],
   env.postSwapScope)

/-- `checkScope`: no manifest is the first-run bypass; otherwise read the
active scope and compare with the manifest scope, optionally swapping. -/
def checkScope (env : ScopeEnv) (man : Option AppManifest) (swap : Bool) :
    ScopeCheckResult × List ScopeCall :=
  match man with
  | some m =>
    if env.currentScope == m.scope then
      ({ matched := true, sessionScope := env.currentScope, manifestScope := m.scope },
       [ScopeCall.getCurrentScope])
    else if swap then
      ({ matched := (swapScope env m.scope).2 == m.scope,
         sessionScope := (swapScope env m.scope).2, manifestScope := m.scope },
       [ScopeCall.getCurrentScope] ++ (swapScope env m.scope).1)
    else
      ({ matched := false, sessionScope := env.currentScope, manifestScope := m.scope },
       [ScopeCall.getCurrentScope])
  | none =>
    ({ matched := true, sessionScope := "", manifestScope := "" }, [])

theorem swapServerScope_has_mutation (env : ScopeEnv) (scopeId : String) :
    (swapServerScope env scopeId).any isScopeMutation = true := by
  unfold swapServerScope
  by_cases h : env.appUserPrefId ≠ "" <;> simp [h, isScopeMutation]

/-- C8: the four cases of `checkScope`. No manifest: match with empty
scopes and no remote call. Matching scopes: match, with only the read-only
scope fetch. Mismatched without swap: no match, only the read-only fetch.
Mismatched with swap: the trace contains a remote mutation (the preference
update or create), and the result reflects the post-swap re-read scope. -/
theorem checkScope_cases (env : ScopeEnv) (man : Option AppManifest) (swap : Bool) :
    (man = none → checkScope env man swap =
      ({ matched := true, sessionScope := "", manifestScope := "" }, [])) ∧
    (∀ m, man = some m → env.currentScope = m.scope →
      checkScope env man swap =
        ({ matched := true, sessionScope := env.currentScope, manifestScope := m.scope },
         [ScopeCall.getCurrentScope])) ∧
    (∀ m, man = some m → env.currentScope ≠ m.scope → swap = false →
      checkScope env man swap =
        ({ matched := false, sessionScope := env.currentScope, manifestScope := m.scope },
         [ScopeCall.getCurrentScope])) ∧
    (∀ m, man = some m → env.currentScope ≠ m.scope → swap = true →
      (checkScope env man swap).2.any isScopeMutation = true ∧
      (checkScope env man swap).1 =
        { matched := env.postSwapScope == m.scope,
          sessionScope := env.postSwapScope, manifestScope := m.scope }) := by
  refine ⟨?_, ?_, ?_, ?_⟩
  · intro h
    subst h
    rfl
  · intro m hm he
    subst hm
    simp [checkScope, he]
  · intro m hm he hs
    subst hm
    subst hs
    simp [checkScope, he]
  · intro m hm he hs
    subst hm
    subst hs
    constructor
    · simp [checkScope, he, swapScope, List.any_append, swapServerScope_has_mutation]
    · simp [checkScope, he, swapScope]

/-- Concrete scope environment with mismatched scopes and no existing
preference record. -/
def wScopeEnv : ScopeEnv :=
  { currentScope := "x_old", scopeIdOf := fun _ => "sid", userSysId := "u1",
    appUserPrefId := "", postSwapScope := "x_new" }

/-- Concrete manifest for the scope witness. -/
def wScopeMan : AppManifest := { scope := "x_new", tables := [] }

/-- Witness for C8, exercising the mismatched-with-swap case. -/
theorem checkScope_cases_witness :
    (checkScope wScopeEnv (some wScopeMan) true).2.any isScopeMutation = true ∧
    (checkScope wScopeEnv (some wScopeMan) true).1 =
      { matched := wScopeEnv.postSwapScope == wScopeMan.scope,
        sessionScope := wScopeEnv.postSwapScope, manifestScope := wScopeMan.scope } :=
  (checkScope_cases wScopeEnv (some wScopeMan) true).2.2.2 wScopeMan rfl (by decide) rfl

end Sincronia
